import Mathlib

/-!
Verification of the Experience-Section Extraction Engine of
`ResumeParser_pjt/backend/core/nlp_processor.py`.

Strings are modelled as `List Char` (ASCII inputs).  Python's `re` module is
modelled by a small backtracking regular-expression engine (`Re`, `mr`) with
Python's priority order: greedy star tries the longer match first, alternation
tries the left branch first, `re.search` scans start positions left to right,
`re.findall` collects non-overlapping matches.  Operations that can raise in
Python (unguarded sequence indexing, group access) are modelled in the
`Except String` monad; everything else is a total function.
-/

namespace ResumeNLP

set_option maxRecDepth 100000

abbrev Str := List Char

/-- Coerce a Lean string literal to the `List Char` model. -/
def str (s : String) : Str := s.data

/-- The whitespace characters stripped by Python `str.strip()` and matched by
regex `\s` (ASCII fragment). -/
def pySpace : List Char := [' ', '\t', '\n', '\r', '\x0B', '\x0C']

def isPySpace (c : Char) : Bool := pySpace.contains c

/-- Python `str.upper()` (ASCII fragment). -/
def pyUpper (s : Str) : Str := s.map Char.toUpper

/-- Python `str.lower()` (ASCII fragment). -/
def pyLower (s : Str) : Str := s.map Char.toLower

def lstrip (s : Str) : Str := s.dropWhile isPySpace

def rstrip (s : Str) : Str := (s.reverse.dropWhile isPySpace).reverse

/-- Python `str.strip()`. -/
def pyStrip (s : Str) : Str := lstrip (rstrip s)

/-- Python `needle in hay` substring test. -/
def hasSub : Str → Str → Bool
  | hay, needle =>
    needle.isPrefixOf hay ||
      match hay with
      | [] => false
      | _ :: t => hasSub t needle

/-- Python `hay.find(needle, start)`; `none` models the `-1` result.  Helper
scanning the suffix while tracking the absolute index. -/
def pyFindAux (needle : Str) : Str → Nat → Option Nat
  | hay, i =>
    if needle.isPrefixOf hay then some i
    else
      match hay with
      | [] => none
      | _ :: t => pyFindAux needle t (i + 1)

/-- Python `hay.find(needle, start)` returning an absolute index. -/
def pyFind (hay needle : Str) (start : Nat) : Option Nat :=
  pyFindAux needle (hay.drop start) start

/-- All indices at which `needle` occurs in `hay`, in increasing order.  This is
what the source's `while True: pos = text.upper().find(header, start); start =
pos + 1` loop collects. -/
def findOccAux (needle : Str) : Str → Nat → List Nat
  | hay, i =>
    (if needle.isPrefixOf hay then [i] else []) ++
      match hay with
      | [] => []
      | _ :: t => findOccAux needle t (i + 1)

def findOcc (hay needle : Str) : List Nat := findOccAux needle hay 0

/-- Python `s.split(sep)` for a non-empty separator: fuel-driven scan; the fuel
`s.length + 1` always suffices. -/
def pySplitAux (sep : Str) : Nat → Str → Str → List Str
  | 0, rest, acc => [acc ++ rest]
  | fuel + 1, rest, acc =>
    if sep.isPrefixOf rest ∧ sep ≠ [] then
      acc :: pySplitAux sep fuel (rest.drop sep.length) []
    else
      match rest with
      | [] => [acc]
      | c :: t => pySplitAux sep fuel t (acc ++ [c])

/-- Python `s.split(sep)` (non-empty `sep`). -/
def pySplit (s sep : Str) : List Str := pySplitAux sep (s.length + 1) s []

/-! ## A backtracking regular-expression engine -/

/-- Regular expressions: literals, character classes (a negatable list of
closed character ranges), sequencing, alternation, greedy star and capturing
groups — exactly the constructs used by the source's patterns. -/
inductive Re : Type
  | eps : Re
  | lit : Str → Re
  | cls : Bool → List (Char × Char) → Re
  | seq : Re → Re → Re
  | alt : Re → Re → Re
  | star : Re → Re
  | grp : Re → Re

/-- Number of capturing groups (Python numbers them by `(` occurrence). -/
def numGrp : Re → Nat
  | .eps => 0
  | .lit _ => 0
  | .cls _ _ => 0
  | .seq a b => numGrp a + numGrp b
  | .alt a b => numGrp a + numGrp b
  | .star a => numGrp a
  | .grp a => numGrp a + 1

/-- Well-formedness used by the capture-arity lemmas: no capturing group sits
under an alternation or a star.  All of the source's patterns satisfy it. -/
def wellG : Re → Bool
  | .eps => true
  | .lit _ => true
  | .cls _ _ => true
  | .seq a b => wellG a && wellG b
  | .alt a b => numGrp a == 0 && numGrp b == 0
  | .star a => numGrp a == 0
  | .grp a => wellG a

def reSize : Re → Nat
  | .eps => 1
  | .lit w => w.length + 1
  | .cls _ _ => 1
  | .seq a b => reSize a + reSize b + 1
  | .alt a b => reSize a + reSize b + 1
  | .star a => reSize a + 1
  | .grp a => reSize a + 1

/-- Membership in a character class. -/
def inCls (neg : Bool) (rs : List (Char × Char)) (c : Char) : Bool :=
  let mem := rs.any (fun p => p.1.toNat ≤ c.toNat && c.toNat ≤ p.2.toNat)
  if neg then !mem else mem

/-- The backtracking matcher, in continuation-passing style.  `mr fuel r s caps
k` tries to match `r` at the start of `s`; on each way of matching it calls
`k rest caps'` where `rest` is the unconsumed input and `caps'` extends `caps`
with the captures made inside `r`; the first continuation call returning
`some` wins, which realises Python's leftmost/greedy/first-alternative
priority.  The fuel only bounds the recursion depth; every pattern in this
file is matched well within the fuel supplied by `matchLen`. -/
def mr : Nat → Re → Str → List Str → (Str → List Str → Option (Str × List Str)) →
    Option (Str × List Str)
  | 0, _, _, _, _ => none
  | _ + 1, .eps, s, caps, k => k s caps
  | _ + 1, .lit w, s, caps, k =>
    if w.isPrefixOf s then k (s.drop w.length) caps else none
  | _ + 1, .cls neg rs, s, caps, k =>
    match s with
    | [] => none
    | c :: s2 => if inCls neg rs c then k s2 caps else none
  | fuel + 1, .seq a b, s, caps, k =>
    mr fuel a s caps (fun s1 c1 => mr fuel b s1 c1 k)
  | fuel + 1, .alt a b, s, caps, k =>
    (mr fuel a s caps k).orElse (fun _ => mr fuel b s caps k)
  | fuel + 1, .star a, s, caps, k =>
    (mr fuel a s caps (fun s1 c1 => mr fuel (.star a) s1 c1 k)).orElse
      (fun _ => k s caps)
  | fuel + 1, .grp a, s, caps, k =>
    mr fuel a s caps (fun s1 c1 => k s1 (c1 ++ [s.take (s.length - s1.length)]))

/-- Fuel that is ample for every anchored match attempt in this file. -/
def bigFuel (r : Re) (s : Str) : Nat :=
  (s.length + reSize r + 2) * (reSize r + 2)

/-- Anchored match at the start of `s`: returns consumed length and captures of
the highest-priority match, like Python's `re.match` semantics at one
position. -/
def matchLen (r : Re) (s : Str) : Option (Nat × List Str) :=
  (mr (bigFuel r s) r s [] (fun rest caps => some (rest, caps))).map
    (fun x => (s.length - x.1.length, x.2))

/-- Python `re.search(r, s)`: leftmost match's captures. -/
def reSearchL (r : Re) : Str → Option (List Str)
  | [] => (matchLen r []).map Prod.snd
  | s@(_ :: t) =>
    match matchLen r s with
    | some (_, caps) => some caps
    | none => reSearchL r t

/-- Scanner behind `re.findall`/`re.sub`: non-overlapping matches, advancing by
one position on failure or on an empty match. -/
def scanAux (r : Re) : Nat → Str → List (Nat × List Str)
  | 0, _ => []
  | fuel + 1, s =>
    match matchLen r s with
    | some (n, caps) =>
      if n = 0 then
        (n, caps) :: (match s with | [] => [] | _ :: t => scanAux r fuel t)
      else
        (n, caps) :: scanAux r fuel (s.drop n)
    | none =>
      match s with
      | [] => []
      | _ :: t => scanAux r fuel t

/-- Python `re.findall(r, s)` returning the capture tuple of each match. -/
def reFindall (r : Re) (s : Str) : List (List Str) :=
  (scanAux r (s.length + 1) s).map Prod.snd

/-- Python `re.sub(r, '', s)`: removes every non-overlapping match. -/
def reSubAux (r : Re) : Nat → Str → Str
  | 0, s => s
  | fuel + 1, s =>
    match matchLen r s with
    | some (n, _) =>
      if n = 0 then
        match s with
        | [] => []
        | c :: t => c :: reSubAux r fuel t
      else reSubAux r fuel (s.drop n)
    | none =>
      match s with
      | [] => []
      | c :: t => c :: reSubAux r fuel t

def reSub (r : Re) (s : Str) : Str := reSubAux r (s.length + 1) s

/-! ## The source's patterns -/

/-- Negated single-character class `[^c]`. -/
def nc (c : Char) : Re := .cls true [(c, c)]

/-- Regex `\s` (ASCII fragment). -/
def spC : Re := .cls false (pySpace.map (fun c => (c, c)))

/-- Regex `[A-Z]`. -/
def ucC : Re := .cls false [('A', 'Z')]

/-- Regex `[a-z]`. -/
def lcC : Re := .cls false [('a', 'z')]

/-- Regex `[A-Za-z]`. -/
def alphaC : Re := .cls false [('A', 'Z'), ('a', 'z')]

/-- Regex `\d`. -/
def digitC : Re := .cls false [('0', '9')]

/-- Regex `r+`. -/
def plusR (r : Re) : Re := .seq r (.star r)

/-- Right-nested sequencing of a pattern list. -/
def seqs (l : List Re) : Re := l.foldr .seq .eps

/-- Regex `r{n}`. -/
def repR (n : Nat) (r : Re) : Re := seqs (List.replicate n r)

/-- The Title-Case phrase `[A-Z][a-z]+(?:\s+[A-Z][a-z]+)*` used throughout. -/
def titleCaseRe : Re :=
  .seq ucC (.seq (plusR lcC) (.star (seqs [plusR spC, ucC, plusR lcC])))

/-- Source line 219: `([^|]+)\s*\|\s*([^(]+)\s*\(([^)]+)\)`. -/
def pipe_pattern : Re :=
  seqs [.grp (plusR (nc '|')), .star spC, .lit (str "|"), .star spC,
    .grp (plusR (nc '(')), .star spC, .lit (str "("), .grp (plusR (nc ')')),
    .lit (str ")")]

/-- Regex `(20XX|\d{4})`. -/
def yearGrp : Re := .grp (.alt (.lit (str "20XX")) (repR 4 digitC))

/-- Source line 268, first date-first pattern:
`(20XX|\d{4})\s+Present\s+([A-Z][a-z]+(?:\s+[A-Z][a-z]+)*)\s+(...)\s+(...)`. -/
def date_pattern1 : Re :=
  seqs [yearGrp, plusR spC, .lit (str "Present"), plusR spC, .grp titleCaseRe,
    plusR spC, .grp titleCaseRe, plusR spC, .grp titleCaseRe]

/-- Source line 269, second date-first pattern. -/
def date_pattern2 : Re :=
  seqs [yearGrp, plusR spC, yearGrp, plusR spC, .grp titleCaseRe, plusR spC,
    .grp titleCaseRe, plusR spC, .grp titleCaseRe]

/-- Source line 342: `([^,]+),\s+([^(]+)\s+([^-]+)-([^-]+)`. -/
def line_pattern3 : Re :=
  seqs [.grp (plusR (nc ',')), .lit (str ","), plusR spC,
    .grp (plusR (nc '(')), plusR spC, .grp (plusR (nc '-')), .lit (str "-"),
    .grp (plusR (nc '-'))]

/-- Source line 376: `([^-]+)-\s*([^(]+)\s*\(([^-]+)-([^)]+)\)`. -/
def line_pattern4 : Re :=
  seqs [.grp (plusR (nc '-')), .lit (str "-"), .star spC,
    .grp (plusR (nc '(')), .star spC, .lit (str "("), .grp (plusR (nc '-')),
    .lit (str "-"), .grp (plusR (nc ')')), .lit (str ")")]

/-- Source line 401: `([^-]+)-\s*([^-]+)`. -/
def line_pattern5 : Re :=
  seqs [.grp (plusR (nc '-')), .lit (str "-"), .star spC, .grp (plusR (nc '-'))]

/-- Source line 359: the `re.sub` pattern `\s+[A-Za-z]+\s+\d{4}`. -/
def date_tail_pattern : Re :=
  seqs [plusR spC, plusR alphaC, plusR spC, repR 4 digitC]

/-- The sub-pattern `[A-Za-z]+\s+20XX` of the whole-text pattern 1. -/
def entireDateRe : Re := seqs [plusR alphaC, plusR spC, .lit (str "20XX")]

/-- The end-date group `([A-Za-z]+\s+20XX|Current)` of whole-text pattern 1. -/
def entireEndRe : Re := .alt entireDateRe (.lit (str "Current"))

/-- Source line 435, whole-text pattern 1 (Resume3 format):
`([A-Z][a-z]+(?:\s+[A-Z][a-z]+)*),\s+(...)\s+([A-Za-z]+\s+20XX)\s*-\s*([A-Za-z]+\s+20XX|Current)`. -/
def entire_pattern1 : Re :=
  seqs [.grp titleCaseRe, .lit (str ","), plusR spC, .grp titleCaseRe,
    plusR spC, .grp entireDateRe, .star spC, .lit (str "-"), .star spC,
    .grp entireEndRe]

/-- Source line 437, whole-text pattern 2 (Resume4 format):
`([A-Z][a-z]+(?:\s+[A-Z][a-z]+)*)\s*-\s*(...)\s*\(([A-Za-z]+\s+\d{4})\s*-\s*Present\)`. -/
def entire_pattern2 : Re :=
  seqs [.grp titleCaseRe, .star spC, .lit (str "-"), .star spC,
    .grp titleCaseRe, .star spC, .lit (str "("),
    .grp (seqs [plusR alphaC, plusR spC, repR 4 digitC]), .star spC,
    .lit (str "-"), .star spC, .lit (str "Present"), .lit (str ")")]

/-- Source line 439, whole-text pattern 3 (Resume5 format):
`([A-Z][a-z]+(?:\s+[A-Z][a-z]+)*)\s*-\s*([A-Z][a-z]+(?:\s+[A-Z][a-z]+)*)`. -/
def entire_pattern3 : Re :=
  seqs [.grp titleCaseRe, .star spC, .lit (str "-"), .star spC,
    .grp titleCaseRe]

/-! ## Data model -/

/-- One job-entry record, the dictionary appended by every strategy. -/
structure Entry where
  title : Str
  company : Str
  start_date : Str
  end_date : Str
  location : Str
  descr : Str
deriving DecidableEq

/-- One scored section candidate, the dictionary built at source lines
181-186. -/
structure Cand where
  header : Str
  position : Nat
  text : Str
  score : Int
deriving DecidableEq

instance : DecidableEq (Except String (List Entry)) := fun a b =>
  match a, b with
  | .ok x, .ok y =>
    if h : x = y then isTrue (by rw [h]) else isFalse (by simp [h])
  | .error x, .error y =>
    if h : x = y then isTrue (by rw [h]) else isFalse (by simp [h])
  | .ok _, .error _ => isFalse (by simp)
  | .error _, .ok _ => isFalse (by simp)

/-- Unguarded Python sequence indexing: raises `IndexError` when out of
range. -/
def idx (l : List Str) (n : Nat) : Except String Str :=
  match l[n]? with
  | some a => .ok a
  | none => .error "IndexError"

/-! ## Section locator (source lines 119-198) -/

def experience_headers : List Str :=
  [str "PROFESSIONAL EXPERIENCE", str "EXPERIENCE", str "WORK HISTORY",
    str "EMPLOYMENT", str "WORK EXPERIENCE", str "EMPLOYMENT HISTORY",
    str "CAREER HISTORY", str "JOB HISTORY"]

def next_sections : List Str :=
  [str "Education", str "Skills", str "Projects", str "Certifications"]

def job_keywords : List Str :=
  [str "manager", str "engineer", str "developer", str "intern",
    str "assistant", str "specialist", str "analyst"]

def summary_keywords : List Str :=
  [str "summary", str "passionate", str "building", str "developing",
    str "experience in"]

/-- Source lines 143-154: earliest case-sensitive occurrence of a next-section
marker bounds the block; otherwise the block runs to the end.  The result is
`section_text` (already stripped, as in the source). -/
def sectionTextOf (after_header : Str) : Str :=
  let next_section_pos :=
    next_sections.foldl
      (fun acc sec =>
        match pyFind after_header sec 0 with
        | some p =>
          match acc with
          | none => some p
          | some q => if p < q then some p else some q
        | none => acc)
      none
  match next_section_pos with
  | some p => pyStrip (after_header.take p)
  | none => pyStrip after_header

/-- Source lines 156-179: the candidate score. -/
def scoreOf (header section_text : Str) : Int :=
  (if header = str "PROFESSIONAL EXPERIENCE" then 10 else 0)
    + (if 100 < section_text.length then 5 else 0)
    + 2 * (job_keywords.countP (fun k => hasSub (pyLower section_text) k) : Int)
    - 3 * (summary_keywords.countP (fun k => hasSub (pyLower section_text) k) : Int)
    - (if section_text.length < 50 then 5 else 0)

/-- All candidates contributed by one header synonym, in position order
(source lines 132-188, the `while True` loop). -/
def candsForHeader (text header : Str) : List Cand :=
  (findOcc (pyUpper text) header).map
    (fun pos =>
      let after_header := text.drop (pos + header.length)
      let section_text := sectionTextOf after_header
      ⟨header, pos, section_text, scoreOf header section_text⟩)

/-- Source lines 131-188: every candidate, headers in list order. -/
def potentialSections (text : Str) : List Cand :=
  experience_headers.foldl (fun acc h => acc ++ candsForHeader text h) []

/-- The comparison realising `sort(key=lambda x: (x['score'], x['position']),
reverse=True)`: `candLe a b` holds when `a` may come before `b`, i.e. the key
of `a` is lexicographically at least the key of `b`. -/
def candLe (a b : Cand) : Bool :=
  decide (b.score < a.score) ||
    ((b.score == a.score) && decide (b.position ≤ a.position))

/-- Stable insertion of a candidate into an already-sorted list: `a` goes in
front of the first element it may precede.  Elements inserted earlier came
earlier in the original list, so ties keep original order, exactly like
Python's stable `list.sort`. -/
def insertSorted (a : Cand) : List Cand → List Cand
  | [] => [a]
  | b :: t => if candLe a b then a :: b :: t else b :: insertSorted a t

/-- Stable sort by `candLe`.  Python's `list.sort` is a stable sort ordered by
the same total preorder, and a stable sort's output is uniquely determined by
the comparison and the input order, so this models source line 191 exactly. -/
def sortCands (l : List Cand) : List Cand := l.foldr insertSorted []

/-- The sorted candidate list of source line 191. -/
def sortedSections (text : Str) : List Cand :=
  sortCands (potentialSections text)

/-! ## Strategy 1: pipe format (source lines 216-262) -/

/-- Source lines 227-238: split `title_company` into title and company at a
double space. -/
def splitTitleCompany (title_company : Str) : Except String (Str × Str) :=
  if hasSub title_company (str "  ") then
    let parts := pySplit title_company (str "  ")
    if 2 ≤ parts.length then do
      let p0 ← idx parts 0
      let p1 ← idx parts 1
      pure (pyStrip p0, pyStrip p1)
    else pure (title_company, ([] : Str))
  else pure (title_company, ([] : Str))

/-- Source lines 240-251: parse the date range into start and end dates. -/
def pipeDates (date_range : Str) : Except String (Str × Str) :=
  if hasSub date_range (str "Present") then do
    let d0 ← idx (pySplit date_range (str "-")) 0
    pure (pyStrip d0, str "Present")
  else
    let dates := pySplit date_range (str "-")
    if dates.length = 2 then do
      let d0 ← idx dates 0
      let d1 ← idx dates 1
      pure (pyStrip d0, pyStrip d1)
    else pure (date_range, ([] : Str))

/-- Processing of one `findall` tuple in `_extract_with_pipe_format`. -/
def pipeEntry (m : List Str) : Except String Entry := do
  let m0 ← idx m 0
  let m1 ← idx m 1
  let m2 ← idx m 2
  let title_company := pyStrip m0
  let date_range := pyStrip m1
  let location := pyStrip m2
  let tc ← splitTitleCompany title_company
  let se ← pipeDates date_range
  pure ⟨tc.1, tc.2, se.1, se.2, location, []⟩

/-- Source `_extract_with_pipe_format`. -/
def extract_with_pipe_format (experience_block : Str) :
    Except String (List Entry) :=
  (reFindall pipe_pattern experience_block).foldlM
    (fun acc m => do pure (acc ++ [← pipeEntry m])) []

/-! ## Strategy 2: date-first format (source lines 264-320) -/

/-- Processing of one `findall` tuple in `_extract_with_date_first_format`;
tuples of any other arity are ignored by the dispatch. -/
def dateFirstEntries (m : List Str) : List Entry :=
  match m with
  | [m0, m1, m2, m3] =>
    let title_company := pyStrip m1
    let tc :=
      if hasSub title_company (str "  ") then
        let parts := pySplit title_company (str "  ")
        match parts with
        | p0 :: p1 :: _ => (pyStrip p0, pyStrip p1)
        | _ => (title_company, m2)
      else (title_company, m2)
    [⟨tc.1, tc.2, m0, str "Present", m3, []⟩]
  | [m0, m1, m2, m3, m4] =>
    let title_company := pyStrip m2
    let tc :=
      if hasSub title_company (str "  ") then
        let parts := pySplit title_company (str "  ")
        match parts with
        | p0 :: p1 :: _ => (pyStrip p0, pyStrip p1)
        | _ => (title_company, m3)
      else (title_company, m3)
    [⟨tc.1, tc.2, m0, m1, m4, []⟩]
  | _ => []

/-- Source `_extract_with_date_first_format`. -/
def extract_with_date_first_format (experience_block : Str) : List Entry :=
  [date_pattern1, date_pattern2].foldl
    (fun acc p =>
      (reFindall p experience_block).foldl
        (fun acc2 m => acc2 ++ dateFirstEntries m) acc)
    []

/-! ## Strategy 3: line-by-line (source lines 322-426) -/

/-- Source lines 333-338: lines skipped as descriptions. -/
def lineSkip (line : Str) : Bool :=
  (str "•").isPrefixOf line || (str "-").isPrefixOf line ||
    hasSub line (str "Developed") || hasSub line (str "Built") ||
    hasSub line (str "Integrated") || hasSub line (str "Increased") ||
    hasSub line (str "Deployed") || hasSub line (str "Handled") ||
    hasSub line (str "Summarize") ||
    hasSub (pyLower line) (str "responsibilities") ||
    hasSub (pyLower line) (str "passionate") ||
    hasSub (pyLower line) (str "building") ||
    decide (100 < line.length)

def monthNames : List Str :=
  [str "January", str "February", str "March", str "April", str "May",
    str "June", str "July", str "August", str "September", str "October",
    str "November", str "December"]

/-- Source lines 355-359: extract the company name from `company_date`. -/
def line3Company (company_date : Str) : Except String Str :=
  if hasSub company_date (str "20XX") then do
    let p0 ← idx (pySplit company_date (str "20XX")) 0
    pure (pyStrip p0)
  else if monthNames.any (fun mo => hasSub company_date mo) then
    pure (pyStrip (reSub date_tail_pattern company_date))
  else pure company_date

/-- Source lines 344-373: processing of a `pattern3` match. -/
def lineEntry3 (c : List Str) : Except String (List Entry) := do
  let g1 ← idx c 0
  let g2 ← idx c 1
  let g3 ← idx c 2
  let g4 ← idx c 3
  let title0 := pyStrip g1
  let company_date := pyStrip g2
  let start_date := pyStrip g3
  let end_date := pyStrip g4
  let title := if (str "e ").isPrefixOf title0 then pyStrip (title0.drop 2)
    else title0
  let company ← line3Company company_date
  if 3 < title.length ∧ 3 < company.length ∧
      ¬ hasSub company_date (str "Summarize") = true ∧
      ¬ hasSub company_date (str "responsibilities") = true ∧
      company_date.length < 50 then
    pure [⟨title, company, start_date, end_date, [], []⟩]
  else pure []

/-- Source lines 378-398: processing of a `pattern4` match. -/
def lineEntry4 (c : List Str) : Except String (List Entry) := do
  let g1 ← idx c 0
  let g2 ← idx c 1
  let g3 ← idx c 2
  let g4 ← idx c 3
  let title0 := pyStrip g1
  let company := pyStrip g2
  let start_date := pyStrip g3
  let end_date := pyStrip g4
  let title := if (str "ce: ").isPrefixOf title0 then pyStrip (title0.drop 4)
    else title0
  if 3 < title.length ∧ 3 < company.length ∧
      ¬ hasSub company (str "Developed") = true ∧ company.length < 50 then
    pure [⟨title, company, start_date, end_date, [], []⟩]
  else pure []

/-- Source lines 403-424: processing of a `pattern5` match. -/
def lineEntry5 (c : List Str) : Except String (List Entry) := do
  let g1 ← idx c 0
  let g2 ← idx c 1
  let title0 := pyStrip g1
  let company := pyStrip g2
  let title := if (str "e: ").isPrefixOf title0 then pyStrip (title0.drop 3)
    else title0
  if 3 < title.length ∧ 3 < company.length ∧
      (hasSub title (str "Intern") = true ∨ hasSub title (str "Developer") = true ∨
        hasSub title (str "Engineer") = true ∨ hasSub title (str "Manager") = true ∨
        hasSub title (str "Assistant") = true ∨
        hasSub title (str "Specialist") = true) ∧
      ¬ hasSub company (str "Built") = true ∧
      ¬ hasSub company (str "Integrated") = true ∧ company.length < 50 then
    pure [⟨title, company, [], [], [], []⟩]
  else pure []

/-- Source lines 327-424: processing of one line of the block. -/
def processLine (line0 : Str) : Except String (List Entry) :=
  let line := pyStrip line0
  if line = [] then pure []
  else if lineSkip line then pure []
  else
    match reSearchL line_pattern3 line with
    | some c => lineEntry3 c
    | none =>
      match reSearchL line_pattern4 line with
      | some c => lineEntry4 c
      | none =>
        match reSearchL line_pattern5 line with
        | some c => lineEntry5 c
        | none => pure []

/-- Source `_extract_with_line_by_line_processing`. -/
def extract_with_line_by_line_processing (experience_block : Str) :
    Except String (List Entry) :=
  (pySplit experience_block (str "\n")).foldlM
    (fun acc l => do pure (acc ++ (← processLine l))) []

/-! ## Strategy 4: whole-text fallback (source lines 428-468) -/

/-- Source lines 444-466: the dispatch on tuple arity.  A three-group tuple
(from `entire_pattern2`) satisfies neither branch and is dropped. -/
def entireEntries (m : List Str) : List Entry :=
  match m with
  | [t, c, sd, ed] =>
    if hasSub t (str "Intern") || hasSub t (str "Developer") ||
        hasSub t (str "Engineer") || hasSub t (str "Manager") then
      [⟨pyStrip t, pyStrip c, pyStrip sd, pyStrip ed, [], []⟩]
    else []
  | [t, c] =>
    if hasSub t (str "Intern") || hasSub t (str "Developer") ||
        hasSub t (str "Engineer") || hasSub t (str "Manager") then
      [⟨pyStrip t, pyStrip c, [], [], [], []⟩]
    else []
  | _ => []

/-- Entries contributed by one whole-text pattern. -/
def entirePatternEntries (r : Re) (text : Str) : List Entry :=
  (reFindall r text).foldl (fun acc m => acc ++ entireEntries m) []

/-- Source `_extract_experience_from_entire_text`. -/
def extract_experience_from_entire_text (text : Str) : List Entry :=
  [entire_pattern1, entire_pattern2, entire_pattern3].foldl
    (fun acc p => acc ++ entirePatternEntries p text) []

/-! ## The engine (source lines 114-214) -/

/-- Source `extract_experience`: locate the best-scoring section, run the
strategy cascade on it, fall back to the whole-text scan. -/
def extract_experience (text : Str) : Except String (List Entry) :=
  match sortedSections text with
  | [] => pure (extract_experience_from_entire_text text)
  | best :: _ =>
    if 0 < best.score then
      let experience_block := best.text
      if experience_block = [] then pure []
      else do
        let e1 ← extract_with_pipe_format experience_block
        if e1 ≠ [] then pure e1
        else
          let e2 := extract_with_date_first_format experience_block
          if e2 ≠ [] then pure e2
          else do
            let e3 ← extract_with_line_by_line_processing experience_block
            if e3 ≠ [] then pure e3
            else pure (extract_experience_from_entire_text text)
    else pure (extract_experience_from_entire_text text)

/-! ## Basic lemmas about the string model -/

theorem isPrefixOf_eq {a b : Str} : a.isPrefixOf b = true ↔ a <+: b :=
  List.isPrefixOf_iff_prefix

theorem pySplitAux_ne_nil (sep : Str) :
    ∀ fuel rest acc, pySplitAux sep fuel rest acc ≠ [] := by
  intro fuel
  induction fuel with
  | zero => intro rest acc; simp [pySplitAux]
  | succ n ih =>
    intro rest acc
    simp only [pySplitAux]
    split
    · simp
    · cases rest with
      | nil => simp
      | cons c t => exact ih t (acc ++ [c])

theorem pySplit_ne_nil (s sep : Str) : pySplit s sep ≠ [] :=
  pySplitAux_ne_nil sep (s.length + 1) s []

theorem idx_ok {l : List Str} {n : Nat} (h : n < l.length) :
    ∃ a, idx l n = .ok a := by
  refine ⟨l[n], ?_⟩
  simp [idx, List.getElem?_eq_getElem h]

theorem hasSub_iff {hay nd : Str} :
    hasSub hay nd = true ↔ ∃ p q, hay = p ++ (nd ++ q) := by
  induction hay with
  | nil =>
    rw [hasSub]
    simp only [Bool.or_eq_true, isPrefixOf_eq]
    constructor
    · rintro (h | h)
      · obtain ⟨t, ht⟩ := h
        exact ⟨[], t, by simp [ht]⟩
      · cases h
    · rintro ⟨p, q, hpq⟩
      have : p = [] ∧ nd ++ q = [] := by
        constructor
        · cases p with
          | nil => rfl
          | cons a b => simp at hpq
        · cases p with
          | nil => simpa using hpq.symm
          | cons a b => simp at hpq
      exact Or.inl ⟨q, this.2⟩
  | cons c t ih =>
    rw [hasSub]
    simp only [Bool.or_eq_true, isPrefixOf_eq, ih]
    constructor
    · rintro (⟨w, hw⟩ | ⟨p, q, hpq⟩)
      · exact ⟨[], w, by simp [hw]⟩
      · exact ⟨c :: p, q, by simp [hpq]⟩
    · rintro ⟨p, q, hpq⟩
      cases p with
      | nil => exact Or.inl ⟨q, by simpa using hpq.symm⟩
      | cons a p2 =>
        simp only [List.cons_append, List.cons.injEq] at hpq
        exact Or.inr ⟨p2, q, hpq.2⟩

theorem hasSub_append_left {s nd : Str} (t : Str) (h : hasSub s nd = true) :
    hasSub (s ++ t) nd = true := by
  rw [hasSub_iff] at h ⊢
  obtain ⟨p, q, rfl⟩ := h
  exact ⟨p, q ++ t, by simp⟩

theorem hasSub_append_self (s nd : Str) : hasSub (s ++ nd) nd = true := by
  rw [hasSub_iff]
  exact ⟨s, [], by simp⟩

theorem pyFindAux_eq_none {nd : Str} :
    ∀ hay i, pyFindAux nd hay i = none ↔ hasSub hay nd = false := by
  intro hay
  induction hay with
  | nil =>
    intro i
    rw [pyFindAux, hasSub]
    cases nd with
    | nil => simp [List.isPrefixOf]
    | cons a b => simp [List.isPrefixOf]
  | cons c t ih =>
    intro i
    rw [pyFindAux, hasSub]
    split
    · simp_all
    · next h =>
      have hf : nd.isPrefixOf (c :: t) = false := by
        cases hp : nd.isPrefixOf (c :: t) with
        | false => rfl
        | true => exact absurd (isPrefixOf_eq.mp hp) (by simpa using h)
      simp [hf, ih (i + 1)]

theorem pyFind_eq_none {hay nd : Str} (h : hasSub hay nd = false) :
    pyFind hay nd 0 = none := by
  rw [pyFind, List.drop_zero, pyFindAux_eq_none]
  exact h

theorem countP_le_of_sub {p q : Str → Bool} :
    ∀ l : List Str, (∀ x ∈ l, p x = true → q x = true) →
      l.countP p ≤ l.countP q := by
  intro l
  induction l with
  | nil => intro _; simp
  | cons a t ih =>
    intro h
    have ht := ih (fun x hx => h x (List.mem_cons_of_mem _ hx))
    have ha := h a (List.mem_cons_self _ _)
    by_cases hpa : p a = true
    · simp [List.countP_cons, hpa, ha hpa]; omega
    · simp only [List.countP_cons]
      have : p a = false := by simpa using hpa
      simp [this]
      split <;> omega

theorem countP_lt_of_sub {p q : Str → Bool} {l : List Str} {x : Str}
    (hx : x ∈ l) (hpx : p x = false) (hqx : q x = true)
    (hsub : ∀ y ∈ l, p y = true → q y = true) :
    l.countP p < l.countP q := by
  induction l with
  | nil => cases hx
  | cons a t ih =>
    by_cases hxa : x = a
    · subst hxa
      have ht := countP_le_of_sub t (fun y hy => hsub y (List.mem_cons_of_mem _ hy))
      simp [List.countP_cons, hpx, hqx]
      omega
    · have hxt : x ∈ t := by
        rcases List.mem_cons.mp hx with h1 | h2
        · exact absurd h1 hxa
        · exact h2
      have ha := hsub a (List.mem_cons_self _ _)
      have ht := ih hxt (fun y hy => hsub y (List.mem_cons_of_mem _ hy))
      simp only [List.countP_cons]
      by_cases hpa : p a = true
      · simp [hpa, ha hpa]; omega
      · have : p a = false := by simpa using hpa
        simp [this]
        split <;> omega

/-! ## Soundness of the matcher -/

/-- Language semantics of `Re`. -/
inductive Lang : Re → Str → Prop
  | eps : Lang .eps []
  | lit (w : Str) : Lang (.lit w) w
  | cls {neg rs c} : inCls neg rs c = true → Lang (.cls neg rs) [c]
  | seq {a b u v} : Lang a u → Lang b v → Lang (.seq a b) (u ++ v)
  | altL {a b u} : Lang a u → Lang (.alt a b) u
  | altR {a b u} : Lang b u → Lang (.alt a b) u
  | starNil {a} : Lang (.star a) []
  | starCons {a u v} : Lang a u → Lang (.star a) v → Lang (.star a) (u ++ v)
  | grp {a u} : Lang a u → Lang (.grp a) u

/-- Capture lists producible while matching `r`, in the order the matcher
appends them. -/
inductive Caps : Re → List Str → Prop
  | eps : Caps .eps []
  | lit (w : Str) : Caps (.lit w) []
  | cls (neg : Bool) (rs : List (Char × Char)) : Caps (.cls neg rs) []
  | seq {a b l1 l2} : Caps a l1 → Caps b l2 → Caps (.seq a b) (l1 ++ l2)
  | altL {a b l} : Caps a l → Caps (.alt a b) l
  | altR {a b l} : Caps b l → Caps (.alt a b) l
  | starNil {a} : Caps (.star a) []
  | starCons {a l1 l2} : Caps a l1 → Caps (.star a) l2 → Caps (.star a) (l1 ++ l2)
  | grp {a l u} : Caps a l → Lang a u → Caps (.grp a) (l ++ [u])

theorem motive_orElse {motive : Option (Str × List Str) → Prop}
    {x : Option (Str × List Str)} {y : Unit → Option (Str × List Str)}
    (hx : motive x) (hy : motive (y ())) : motive (x.orElse y) := by
  cases x with
  | none => simpa [Option.orElse] using hy
  | some a => simpa [Option.orElse] using hx

/-- Whenever `mr` invokes its continuation, the consumed input is in the
language of the regex and the appended captures are producible by it. -/
theorem mr_sound (motive : Option (Str × List Str) → Prop)
    (hnone : motive none) :
    ∀ fuel r s caps k,
      (∀ u s2 ext, u ++ s2 = s → Lang r u → Caps r ext →
        motive (k s2 (caps ++ ext))) →
      motive (mr fuel r s caps k) := by
  intro fuel
  induction fuel with
  | zero => intro r s caps k _; exact hnone
  | succ n ih =>
    intro r s caps k hk
    cases r with
    | eps =>
      have h := hk [] s [] rfl Lang.eps Caps.eps
      simpa [mr] using h
    | lit w =>
      simp only [mr]
      split
      · next hpre =>
        obtain ⟨t, ht⟩ := isPrefixOf_eq.mp hpre
        have hdrop : s.drop w.length = t := by
          rw [← ht, List.drop_left]
        have h := hk w (s.drop w.length) [] (by rw [hdrop, ht]) (Lang.lit w)
          (Caps.lit w)
        simpa using h
      · exact hnone
    | cls neg rs =>
      cases s with
      | nil => simpa [mr] using hnone
      | cons c s2 =>
        simp only [mr]
        split
        · next hc =>
          have h := hk [c] s2 [] rfl (Lang.cls hc) (Caps.cls neg rs)
          simpa using h
        · exact hnone
    | seq a b =>
      simp only [mr]
      refine ih a s caps _ ?_
      intro u s2 ext hu hla hca
      refine ih b s2 (caps ++ ext) k ?_
      intro v s3 ext2 hv hlb hcb
      have h := hk (u ++ v) s3 (ext ++ ext2)
        (by rw [List.append_assoc, hv, hu]) (Lang.seq hla hlb)
        (Caps.seq hca hcb)
      simpa [List.append_assoc] using h
    | alt a b =>
      simp only [mr]
      refine motive_orElse ?_ ?_
      · refine ih a s caps k ?_
        intro u s2 ext hu hl hc
        exact hk u s2 ext hu (Lang.altL hl) (Caps.altL hc)
      · refine ih b s caps k ?_
        intro u s2 ext hu hl hc
        exact hk u s2 ext hu (Lang.altR hl) (Caps.altR hc)
    | star a =>
      simp only [mr]
      refine motive_orElse ?_ ?_
      · refine ih a s caps _ ?_
        intro u s2 ext hu hla hca
        refine ih (.star a) s2 (caps ++ ext) k ?_
        intro v s3 ext2 hv hls hcs
        have h := hk (u ++ v) s3 (ext ++ ext2)
          (by rw [List.append_assoc, hv, hu]) (Lang.starCons hla hls)
          (Caps.starCons hca hcs)
        simpa [List.append_assoc] using h
      · have h := hk [] s [] rfl Lang.starNil Caps.starNil
        simpa using h
    | grp a =>
      simp only [mr]
      refine ih a s caps _ ?_
      intro u s2 ext hu hla hca
      have htake : s.take (s.length - s2.length) = u := by
        have hlen : s.length - s2.length = u.length := by
          rw [← hu]; simp
        rw [hlen, ← hu, List.take_left]
      have h := hk u s2 (ext ++ [u]) hu (Lang.grp hla) (Caps.grp hca hla)
      rw [htake]
      simpa [List.append_assoc] using h

/-- Every successful anchored match consumes a word of the language and
returns producible captures. -/
theorem matchLen_sound {r : Re} {s : Str} {n : Nat} {c : List Str}
    (h : matchLen r s = some (n, c)) :
    ∃ u s2, u ++ s2 = s ∧ n = u.length ∧ Lang r u ∧ Caps r c := by
  have main := mr_sound
    (motive := fun o => (o.map (fun x => (s.length - x.1.length, x.2)))
      = some (n, c) →
      ∃ u s2, u ++ s2 = s ∧ n = u.length ∧ Lang r u ∧ Caps r c)
    (by simp)
    (bigFuel r s) r s [] (fun rest caps => some (rest, caps))
    ?_
  · exact main h
  · intro u s2 ext hu hl hc heq
    simp only [Option.map_some', Option.some.injEq, Prod.mk.injEq] at heq
    obtain ⟨hn, hext⟩ := heq
    refine ⟨u, s2, hu, ?_, hl, ?_⟩
    · have hlen : s.length = u.length + s2.length := by rw [← hu]; simp
      omega
    · rw [← hext]
      simpa using hc

theorem caps_of_numGrp_zero {r : Re} {l : List Str} (h : Caps r l) :
    numGrp r = 0 → l = [] := by
  induction h with
  | eps => intro _; rfl
  | lit w => intro _; rfl
  | cls neg rs => intro _; rfl
  | seq _ _ ih1 ih2 =>
    intro hz
    rw [numGrp] at hz
    rw [ih1 (by omega), ih2 (by omega)]
    rfl
  | altL _ ih =>
    intro hz
    rw [numGrp] at hz
    exact ih (by omega)
  | altR _ ih =>
    intro hz
    rw [numGrp] at hz
    exact ih (by omega)
  | starNil => intro _; rfl
  | starCons _ _ ih1 ih2 =>
    intro hz
    rw [numGrp] at hz
    rw [ih1 hz, ih2 (by rw [numGrp]; exact hz)]
    rfl
  | grp _ _ ih =>
    intro hz
    rw [numGrp] at hz
    omega

/-- Under `wellG`, the number of captures equals the number of groups. -/
theorem caps_length {r : Re} {l : List Str} (h : Caps r l) :
    wellG r = true → l.length = numGrp r := by
  induction h with
  | eps => intro _; rfl
  | lit w => intro _; rfl
  | cls neg rs => intro _; rfl
  | seq _ _ ih1 ih2 =>
    intro hw
    rw [wellG, Bool.and_eq_true] at hw
    simp [numGrp, ih1 hw.1, ih2 hw.2]
  | @altL a b l2 hc ih =>
    intro hw
    rw [wellG, Bool.and_eq_true] at hw
    have h1 : numGrp a = 0 := by simpa using hw.1
    have h2 : numGrp b = 0 := by simpa using hw.2
    simp [numGrp, caps_of_numGrp_zero hc h1, h1, h2]
  | @altR a b l2 hc ih =>
    intro hw
    rw [wellG, Bool.and_eq_true] at hw
    have h1 : numGrp a = 0 := by simpa using hw.1
    have h2 : numGrp b = 0 := by simpa using hw.2
    simp [numGrp, caps_of_numGrp_zero hc h2, h1, h2]
  | @starNil a =>
    intro hw
    rw [wellG] at hw
    have h1 : numGrp a = 0 := by simpa using hw
    simp [numGrp, h1]
  | @starCons a l1 l2 hc1 hc2 ih1 ih2 =>
    intro hw
    rw [wellG] at hw
    have h1 : numGrp a = 0 := by simpa using hw
    have e1 := caps_of_numGrp_zero hc1 h1
    have e2 := caps_of_numGrp_zero hc2 (by rw [numGrp]; exact h1)
    simp [numGrp, e1, e2, h1]
  | grp hc hl ih =>
    intro hw
    rw [wellG] at hw
    simp [numGrp, ih hw]

/-- Every capture tuple produced by the scanner comes from a successful
anchored match on some suffix. -/
theorem scanAux_sound {r : Re} :
    ∀ fuel s x, x ∈ scanAux r fuel s → ∃ s1, matchLen r s1 = some x := by
  intro fuel
  induction fuel with
  | zero => intro s x hx; simp [scanAux] at hx
  | succ n ih =>
    intro s x hx
    simp only [scanAux] at hx
    revert hx
    split
    · next m caps hm =>
      split
      · intro hx
        rcases List.mem_cons.mp hx with rfl | hx2
        · exact ⟨s, by simpa using hm⟩
        · revert hx2
          split
          · intro hx2; cases hx2
          · intro hx2; exact ih _ x hx2
      · intro hx
        rcases List.mem_cons.mp hx with rfl | hx2
        · exact ⟨s, by simpa using hm⟩
        · exact ih _ x hx2
    · intro hx
      revert hx
      split
      · intro hx; cases hx
      · intro hx; exact ih _ x hx

theorem reFindall_sound {r : Re} {s : Str} {m : List Str}
    (h : m ∈ reFindall r s) : ∃ s1 n, matchLen r s1 = some (n, m) := by
  rw [reFindall] at h
  obtain ⟨⟨n, caps⟩, hmem, heq⟩ := List.mem_map.mp h
  obtain ⟨s1, hs1⟩ := scanAux_sound _ _ _ hmem
  cases heq
  exact ⟨s1, n, hs1⟩

theorem reSearchL_sound {r : Re} :
    ∀ {s : Str} {m : List Str}, reSearchL r s = some m →
      ∃ s1 n, matchLen r s1 = some (n, m) := by
  intro s
  induction s with
  | nil =>
    intro m h
    simp only [reSearchL] at h
    obtain ⟨⟨n, caps⟩, hm, heq⟩ := Option.map_eq_some'.mp h
    cases heq
    exact ⟨[], n, hm⟩
  | cons c t ih =>
    intro m h
    simp only [reSearchL] at h
    revert h
    split
    · next n caps hm =>
      intro h
      cases h
      exact ⟨c :: t, n, hm⟩
    · intro h
      exact ih h

/-- Captures of a `findall` on a well-formed pattern have the group count as
their length. -/
theorem reFindall_length {r : Re} {s : Str} {m : List Str}
    (hw : wellG r = true) (h : m ∈ reFindall r s) : m.length = numGrp r := by
  obtain ⟨s1, n, hs1⟩ := reFindall_sound h
  obtain ⟨u, s2, _, _, _, hc⟩ := matchLen_sound hs1
  exact caps_length hc hw

/-- Captures of a successful `search` on a well-formed pattern have the group
count as their length. -/
theorem reSearchL_length {r : Re} {s : Str} {m : List Str}
    (hw : wellG r = true) (h : reSearchL r s = some m) :
    m.length = numGrp r := by
  obtain ⟨s1, n, hs1⟩ := reSearchL_sound h
  obtain ⟨u, s2, _, _, _, hc⟩ := matchLen_sound hs1
  exact caps_length hc hw

/-- Captures of a `findall` are producible capture lists. -/
theorem reFindall_caps {r : Re} {s : Str} {m : List Str}
    (h : m ∈ reFindall r s) : Caps r m := by
  obtain ⟨s1, n, hs1⟩ := reFindall_sound h
  obtain ⟨u, s2, _, _, _, hc⟩ := matchLen_sound hs1
  exact hc

theorem countP_congr_of_iff {p q : Str → Bool} :
    ∀ l : List Str, (∀ x ∈ l, p x = q x) → l.countP p = l.countP q := by
  intro l
  induction l with
  | nil => intro _; simp
  | cons a t ih =>
    intro h
    have := h a (List.mem_cons_self _ _)
    simp [List.countP_cons, this, ih (fun x hx => h x (List.mem_cons_of_mem _ hx))]

/-! ## The engine never raises -/

/-- An `Except` computation that succeeded. -/
def okE {α : Type} (e : Except String α) : Prop := ∃ a, e = .ok a

theorem okE_pure {α : Type} (a : α) : okE (pure a : Except String α) := ⟨a, rfl⟩

theorem okE_bind {α β : Type} {e : Except String α} {f : α → Except String β}
    (he : okE e) (hf : ∀ a, e = .ok a → okE (f a)) : okE (e >>= f) := by
  obtain ⟨a, rfl⟩ := he
  exact hf a rfl

theorem okE_ite {α : Type} {c : Prop} [Decidable c] {x y : Except String α}
    (hx : c → okE x) (hy : ¬c → okE y) : okE (if c then x else y) := by
  split
  · next h => exact hx h
  · next h => exact hy h

theorem okE_idx {l : List Str} {n : Nat} (h : n < l.length) : okE (idx l n) :=
  idx_ok h

theorem pySplit_len_pos (s sep : Str) : 0 < (pySplit s sep).length :=
  List.length_pos.mpr (pySplit_ne_nil s sep)

theorem splitTitleCompany_ok (tc : Str) : okE (splitTitleCompany tc) := by
  rw [splitTitleCompany]
  refine okE_ite ?_ (fun _ => okE_pure _)
  intro _
  dsimp only
  refine okE_ite ?_ (fun _ => okE_pure _)
  intro hp
  refine okE_bind (okE_idx (by omega)) fun p0 _ => ?_
  refine okE_bind (okE_idx (by omega)) fun p1 _ => ?_
  exact okE_pure _

theorem pipeDates_ok (dr : Str) : okE (pipeDates dr) := by
  rw [pipeDates]
  refine okE_ite ?_ ?_
  · intro _
    refine okE_bind (okE_idx (pySplit_len_pos _ _)) fun d0 _ => ?_
    exact okE_pure _
  · intro _
    dsimp only
    refine okE_ite ?_ (fun _ => okE_pure _)
    intro hd
    refine okE_bind (okE_idx (by omega)) fun d0 _ => ?_
    refine okE_bind (okE_idx (by omega)) fun d1 _ => ?_
    exact okE_pure _

theorem pipeEntry_ok {m : List Str} (h : m.length = 3) : okE (pipeEntry m) := by
  rw [pipeEntry]
  refine okE_bind (okE_idx (by omega)) fun m0 _ => ?_
  refine okE_bind (okE_idx (by omega)) fun m1 _ => ?_
  refine okE_bind (okE_idx (by omega)) fun m2 _ => ?_
  refine okE_bind (splitTitleCompany_ok _) fun tc _ => ?_
  refine okE_bind (pipeDates_ok _) fun se _ => ?_
  exact okE_pure _

theorem line3Company_ok (cd : Str) : okE (line3Company cd) := by
  rw [line3Company]
  refine okE_ite ?_ ?_
  · intro _
    refine okE_bind (okE_idx (pySplit_len_pos _ _)) fun p0 _ => ?_
    exact okE_pure _
  · intro _
    exact okE_ite (fun _ => okE_pure _) (fun _ => okE_pure _)

theorem lineEntry3_ok {c : List Str} (h : c.length = 4) : okE (lineEntry3 c) := by
  rw [lineEntry3]
  refine okE_bind (okE_idx (by omega)) fun g1 _ => ?_
  refine okE_bind (okE_idx (by omega)) fun g2 _ => ?_
  refine okE_bind (okE_idx (by omega)) fun g3 _ => ?_
  refine okE_bind (okE_idx (by omega)) fun g4 _ => ?_
  refine okE_bind (line3Company_ok _) fun company _ => ?_
  exact okE_ite (fun _ => okE_pure _) (fun _ => okE_pure _)

theorem lineEntry4_ok {c : List Str} (h : c.length = 4) : okE (lineEntry4 c) := by
  rw [lineEntry4]
  refine okE_bind (okE_idx (by omega)) fun g1 _ => ?_
  refine okE_bind (okE_idx (by omega)) fun g2 _ => ?_
  refine okE_bind (okE_idx (by omega)) fun g3 _ => ?_
  refine okE_bind (okE_idx (by omega)) fun g4 _ => ?_
  exact okE_ite (fun _ => okE_pure _) (fun _ => okE_pure _)

theorem lineEntry5_ok {c : List Str} (h : c.length = 2) : okE (lineEntry5 c) := by
  rw [lineEntry5]
  refine okE_bind (okE_idx (by omega)) fun g1 _ => ?_
  refine okE_bind (okE_idx (by omega)) fun g2 _ => ?_
  exact okE_ite (fun _ => okE_pure _) (fun _ => okE_pure _)

theorem processLine_ok (line0 : Str) : okE (processLine line0) := by
  rw [processLine]
  refine okE_ite (fun _ => okE_pure _) ?_
  intro _
  refine okE_ite (fun _ => okE_pure _) ?_
  intro _
  split
  · next c hc =>
    exact lineEntry3_ok (reSearchL_length (by decide) hc)
  · split
    · next c hc =>
      exact lineEntry4_ok (reSearchL_length (by decide) hc)
    · split
      · next c hc =>
        exact lineEntry5_ok (reSearchL_length (by decide) hc)
      · exact okE_pure _

theorem foldlM_append_ok {α : Type} {g : List Entry → α → Except String (List Entry)} :
    ∀ xs : List α, (∀ x ∈ xs, ∀ acc2, okE (g acc2 x)) →
      ∀ acc, okE (xs.foldlM g acc) := by
  intro xs
  induction xs with
  | nil => intro _ acc; exact okE_pure _
  | cons x t ih =>
    intro h acc
    rw [List.foldlM_cons]
    refine okE_bind (h x (List.mem_cons_self _ _) acc) ?_
    intro a _
    exact ih (fun y hy => h y (List.mem_cons_of_mem _ hy)) a

theorem extract_with_pipe_format_ok (block : Str) :
    okE (extract_with_pipe_format block) := by
  rw [extract_with_pipe_format]
  refine foldlM_append_ok _ ?_ []
  intro m hm acc
  refine okE_bind (pipeEntry_ok ?_) ?_
  · exact reFindall_length (by decide) hm
  · intro e _
    exact okE_pure _

theorem extract_with_line_by_line_processing_ok (block : Str) :
    okE (extract_with_line_by_line_processing block) := by
  rw [extract_with_line_by_line_processing]
  refine foldlM_append_ok _ ?_ []
  intro l hl acc
  refine okE_bind (processLine_ok l) ?_
  intro e _
  exact okE_pure _

/-- Scenario A input of the spec (claim C1). -/
def scenarioA : Str :=
  str "PROFESSIONAL EXPERIENCE\nSoftware Engineer | TechCorp (Jan 2020 - Present)\nEDUCATION\n..."

/-- The block the locator selects on Scenario A. -/
def blockA : Str :=
  str "Software Engineer | TechCorp (Jan 2020 - Present)\nEDUCATION\n..."

/-- The entry the code actually produces on Scenario A. -/
def entryA : Entry :=
  ⟨str "Software Engineer", [], str "TechCorp", [], str "Jan 2020 - Present", []⟩

/-- Scenario B input of the spec (claim C5). -/
def scenarioB : Str :=
  str "EXPERIENCE\nData Analyst, Acme Corp January 2021 - March 2022\nEDUCATION"

/-- The block the locator selects on Scenario B. -/
def blockB : Str :=
  str "Data Analyst, Acme Corp January 2021 - March 2022\nEDUCATION"

/-- The entry the code actually produces on Scenario B. -/
def entryB : Entry :=
  ⟨str "Data Analyst", str "Acme Corp January", str "2021", str "March 2022",
    [], []⟩

/-- Scenario C input of the spec (claim C8). -/
def scenarioC : Str :=
  str "SUMMARY\nPassionate about building scalable systems with 5 years of experience in backend development."

/-- The single section candidate built on Scenario C. -/
def candC : Cand := ⟨str "EXPERIENCE", 67, str "in backend development.", -5⟩

theorem extract_experience_ok (text : Str) : okE (extract_experience text) := by
  rw [extract_experience]
  split
  · exact okE_pure _
  · refine okE_ite ?_ (fun _ => okE_pure _)
    intro _
    refine okE_ite (fun _ => okE_pure _) ?_
    intro _
    refine okE_bind (extract_with_pipe_format_ok _) ?_
    intro e1 _
    refine okE_ite (fun _ => okE_pure _) ?_
    intro _
    refine okE_ite (fun _ => okE_pure _) ?_
    intro _
    refine okE_bind (extract_with_line_by_line_processing_ok _) ?_
    intro e3 _
    exact okE_ite (fun _ => okE_pure _) (fun _ => okE_pure _)

/-! ## The claims -/

/-- C1 (counterexample): on Scenario A the pipe-format strategy does not
assign the claimed fields.  The regex group between `|` and `(` — here
"TechCorp" — is assigned to the date-range variable, so it ends up in
`start_date`; the parenthesized group "Jan 2020 - Present" ends up in
`location`; `company` and `end_date` are empty.  The claimed entry with
company "TechCorp", start "Jan 2020", end "Present" and empty location is not
returned. -/
theorem claim_C1_counterexample :
    extract_experience scenarioA = Except.ok [entryA] ∧
    extract_experience scenarioA ≠
      Except.ok [⟨str "Software Engineer", str "TechCorp", str "Jan 2020",
        str "Present", [], []⟩] := by
  have h1 : extract_experience scenarioA = Except.ok [entryA] := by rfl
  refine ⟨h1, ?_⟩
  rw [h1]
  decide

/-- C1 (amended): on Scenario A the locator selects the
"PROFESSIONAL EXPERIENCE" block and the pipe-format strategy yields exactly
one entry with title "Software Engineer", company "", start_date "TechCorp",
end_date "" and location "Jan 2020 - Present", which `extract_experience`
returns. -/
theorem claim_C1_amended :
    (sortedSections scenarioA).head? =
      some ⟨str "PROFESSIONAL EXPERIENCE", 0, blockA, 12⟩ ∧
    extract_with_pipe_format blockA = Except.ok [entryA] ∧
    extract_experience scenarioA = Except.ok [entryA] := by
  refine ⟨?_, ?_, ?_⟩ <;> rfl

/-- C2: on every input the engine returns a finite sequence of entries and
never raises: the `Except`-instrumented embedding, in which every unguarded
Python indexing step may throw, always returns `ok`. -/
theorem claim_C2 (text : Str) : ∃ l, extract_experience text = Except.ok l :=
  extract_experience_ok text

/-- C5 (counterexample): on Scenario B the code does not return the claimed
entry: by regex backtracking, pattern-3's second group captures
"Acme Corp January" (not "Acme Corp") and the third group captures "2021"
(not "January 2021"), and the date-tail clean-up regex `\s+[A-Za-z]+\s+\d{4}`
does not fire because "Acme Corp January" contains no four-digit year. -/
theorem claim_C5_counterexample :
    extract_experience scenarioB = Except.ok [entryB] ∧
    extract_experience scenarioB ≠
      Except.ok [⟨str "Data Analyst", str "Acme Corp", str "January 2021",
        str "March 2022", [], []⟩] := by
  have h1 : extract_experience scenarioB = Except.ok [entryB] := by rfl
  refine ⟨h1, ?_⟩
  rw [h1]
  decide

/-- C5 (amended): on Scenario B the pipe-format and date-first strategies
produce nothing, line-by-line pattern 3 matches the job line with groups
"Data Analyst" / "Acme Corp January" / "2021 " / " March 2022", and the
engine returns the single entry with title "Data Analyst", company
"Acme Corp January", start_date "2021", end_date "March 2022". -/
theorem claim_C5_amended :
    reSearchL line_pattern3
        (str "Data Analyst, Acme Corp January 2021 - March 2022") =
      some [str "Data Analyst", str "Acme Corp January", str "2021 ",
        str " March 2022"] ∧
    extract_with_pipe_format blockB = Except.ok [] ∧
    extract_with_date_first_format blockB = [] ∧
    extract_with_line_by_line_processing blockB = Except.ok [entryB] ∧
    extract_experience scenarioB = Except.ok [entryB] := by
  refine ⟨?_, ?_, ?_, ?_, ?_⟩ <;> rfl

/-- C8 (counterexample): on Scenario C the locator's only candidate is the
text after the matched header "EXPERIENCE", namely "in backend development.",
which does not contain the summary keyword "experience in"; the claim's
mechanism (score driven non-positive by that keyword) is false. -/
theorem claim_C8_counterexample :
    potentialSections scenarioC = [candC] ∧
    hasSub (pyLower candC.text) (str "experience in") = false := by
  refine ⟨?_, ?_⟩ <;> rfl

/-- C8 (amended): on Scenario C the only candidate's block is
"in backend development." with score `-5`, caused by the short-section
penalty (length < 50) and not by any summary keyword (no summary keyword
occurs in the block); locating fails and the engine returns exactly the
whole-text fallback result on the full input, which is empty. -/
theorem claim_C8_amended :
    potentialSections scenarioC = [candC] ∧
    candC.score = -5 ∧
    candC.text.length < 50 ∧
    summary_keywords.countP (fun k => hasSub (pyLower candC.text) k) = 0 ∧
    extract_experience scenarioC =
      Except.ok (extract_experience_from_entire_text scenarioC) ∧
    extract_experience_from_entire_text scenarioC = [] := by
  refine ⟨?_, ?_, ?_, ?_, ?_, ?_⟩
  · rfl
  · rfl
  · decide
  · rfl
  · rfl
  · rfl

/-- Input exhibiting the empty-block edge (claim C3): the best candidate has
score 5 but an empty block, so the cascade and the fallback are skipped. -/
def edgeC3 : Str := str "Engineer - Acme\nPROFESSIONAL EXPERIENCE"

/-- Input exhibiting the same edge for claim C7. -/
def edgeC7 : Str := str "Developer - Beta\nPROFESSIONAL EXPERIENCE"

/-- Input whose located block is non-empty while every strategy, including the
whole-text fallback, produces nothing. -/
def edgeZ : Str := str "PROFESSIONAL EXPERIENCE\nzzzz zzzz"

/-- C3 (counterexample): on `edgeC3` the locator selects a usable section
(score 5 > 0) whose block is empty; all three block strategies return the
empty sequence on that block, the whole-text fallback on the full document is
non-empty, yet `extract_experience` returns the empty sequence, not the
fallback result. -/
theorem claim_C3_counterexample :
    (sortedSections edgeC3).head? =
      some ⟨str "PROFESSIONAL EXPERIENCE", 16, [], 5⟩ ∧
    extract_with_pipe_format [] = Except.ok [] ∧
    extract_with_date_first_format [] = [] ∧
    extract_with_line_by_line_processing [] = Except.ok [] ∧
    extract_experience_from_entire_text edgeC3 =
      [⟨str "Engineer", str "Acme", [], [], [], []⟩] ∧
    extract_experience edgeC3 = Except.ok [] ∧
    extract_experience edgeC3 ≠
      Except.ok (extract_experience_from_entire_text edgeC3) := by
  have h1 : extract_experience edgeC3 = Except.ok [] := by rfl
  have h2 : extract_experience_from_entire_text edgeC3 =
      [⟨str "Engineer", str "Acme", [], [], [], []⟩] := by rfl
  refine ⟨by rfl, by rfl, by rfl, by rfl, h2, h1, ?_⟩
  rw [h1, h2]
  decide

/-- C3 (amended): the engine returns the whole-text fallback result when the
locator finds no candidate, when the top candidate's score is non-positive,
or when the top candidate has a positive score, a NON-EMPTY block, and all
three block strategies return the empty sequence on it.  (When the selected
block is empty, the engine returns the empty sequence without invoking the
fallback.) -/
theorem claim_C3_amended (text : Str) :
    (sortedSections text = [] →
      extract_experience text =
        Except.ok (extract_experience_from_entire_text text)) ∧
    (∀ best rest, sortedSections text = best :: rest → best.score ≤ 0 →
      extract_experience text =
        Except.ok (extract_experience_from_entire_text text)) ∧
    (∀ best rest, sortedSections text = best :: rest → 0 < best.score →
      best.text ≠ [] →
      extract_with_pipe_format best.text = Except.ok [] →
      extract_with_date_first_format best.text = [] →
      extract_with_line_by_line_processing best.text = Except.ok [] →
      extract_experience text =
        Except.ok (extract_experience_from_entire_text text)) := by
  refine ⟨?_, ?_, ?_⟩
  · intro h
    rw [extract_experience, h]
    rfl
  · intro best rest h hle
    rw [extract_experience, h]
    dsimp only
    rw [if_neg (by omega)]
    rfl
  · intro best rest h hpos hne hp hd hl
    rw [extract_experience, h]
    dsimp only
    rw [if_pos hpos, if_neg hne, hp]
    simp only [bind, Except.bind]
    rw [if_neg (by simp : ¬(([] : List Entry) ≠ []))]
    rw [hd]
    rw [if_neg (by simp : ¬(([] : List Entry) ≠ []))]
    rw [hl]
    simp only [bind, Except.bind]
    rw [if_neg (by simp : ¬(([] : List Entry) ≠ []))]
    rfl

/-- C3 (witness): the amended claim applied to Scenario C (no usable section)
and to `edgeZ` (usable non-empty block, all strategies empty). -/
theorem claim_C3_witness :
    extract_experience scenarioC =
      Except.ok (extract_experience_from_entire_text scenarioC) ∧
    extract_experience edgeZ =
      Except.ok (extract_experience_from_entire_text edgeZ) := by
  constructor
  · exact (claim_C3_amended scenarioC).2.1 candC [] (by rfl) (by decide)
  · exact (claim_C3_amended edgeZ).2.2
      ⟨str "PROFESSIONAL EXPERIENCE", 0, str "zzzz zzzz", 5⟩
      [⟨str "EXPERIENCE", 13, str "zzzz zzzz", -5⟩]
      (by rfl) (by decide) (by decide) (by rfl) (by rfl) (by rfl)

/-- C7 (counterexample): on `edgeC7` the located block (score 5 > 0) is
empty; the three block strategies produce the empty sequence and the
whole-text fallback — the fourth strategy of the cascade — produces a
non-empty sequence, yet `extract_experience` returns the empty sequence
rather than the output of the first strategy that produced a non-empty
sequence. -/
theorem claim_C7_counterexample :
    (sortedSections edgeC7).head? =
      some ⟨str "PROFESSIONAL EXPERIENCE", 17, [], 5⟩ ∧
    extract_with_pipe_format [] = Except.ok [] ∧
    extract_with_date_first_format [] = [] ∧
    extract_with_line_by_line_processing [] = Except.ok [] ∧
    extract_experience_from_entire_text edgeC7 =
      [⟨str "Developer", str "Beta", [], [], [], []⟩] ∧
    extract_experience edgeC7 = Except.ok [] ∧
    extract_experience edgeC7 ≠
      Except.ok (extract_experience_from_entire_text edgeC7) := by
  have h1 : extract_experience edgeC7 = Except.ok [] := by rfl
  have h2 : extract_experience_from_entire_text edgeC7 =
      [⟨str "Developer", str "Beta", [], [], [], []⟩] := by rfl
  refine ⟨by rfl, by rfl, by rfl, by rfl, h2, h1, ?_⟩
  rw [h1, h2]
  decide

/-- C7 (amended): when the located block is NON-EMPTY, the strategies are
attempted in the fixed order pipe-format, date-first, line-by-line,
whole-text fallback, each later one only if every earlier one produced the
empty sequence, and the engine returns the output of the first strategy
producing a non-empty sequence unchanged. -/
theorem claim_C7_amended (text : Str) (best : Cand) (rest : List Cand)
    (h : sortedSections text = best :: rest) (hpos : 0 < best.score)
    (hne : best.text ≠ []) :
    (∀ l1, extract_with_pipe_format best.text = Except.ok l1 → l1 ≠ [] →
      extract_experience text = Except.ok l1) ∧
    (extract_with_pipe_format best.text = Except.ok [] →
      extract_with_date_first_format best.text ≠ [] →
      extract_experience text =
        Except.ok (extract_with_date_first_format best.text)) ∧
    (∀ l3, extract_with_pipe_format best.text = Except.ok [] →
      extract_with_date_first_format best.text = [] →
      extract_with_line_by_line_processing best.text = Except.ok l3 →
      l3 ≠ [] → extract_experience text = Except.ok l3) ∧
    (extract_with_pipe_format best.text = Except.ok [] →
      extract_with_date_first_format best.text = [] →
      extract_with_line_by_line_processing best.text = Except.ok [] →
      extract_experience text =
        Except.ok (extract_experience_from_entire_text text)) := by
  refine ⟨?_, ?_, ?_, ?_⟩
  · intro l1 hp hne1
    rw [extract_experience, h]
    dsimp only
    rw [if_pos hpos, if_neg hne, hp]
    simp only [bind, Except.bind]
    rw [if_pos hne1]
    rfl
  · intro hp hd
    rw [extract_experience, h]
    dsimp only
    rw [if_pos hpos, if_neg hne, hp]
    simp only [bind, Except.bind]
    rw [if_neg (by simp : ¬(([] : List Entry) ≠ []))]
    rw [if_pos hd]
    rfl
  · intro l3 hp hd hl hne3
    rw [extract_experience, h]
    dsimp only
    rw [if_pos hpos, if_neg hne, hp]
    simp only [bind, Except.bind]
    rw [if_neg (by simp : ¬(([] : List Entry) ≠ []))]
    rw [hd]
    rw [if_neg (by simp : ¬(([] : List Entry) ≠ []))]
    rw [hl]
    simp only [bind, Except.bind]
    rw [if_pos hne3]
    rfl
  · intro hp hd hl
    rw [extract_experience, h]
    dsimp only
    rw [if_pos hpos, if_neg hne, hp]
    simp only [bind, Except.bind]
    rw [if_neg (by simp : ¬(([] : List Entry) ≠ []))]
    rw [hd]
    rw [if_neg (by simp : ¬(([] : List Entry) ≠ []))]
    rw [hl]
    simp only [bind, Except.bind]
    rw [if_neg (by simp : ¬(([] : List Entry) ≠ []))]
    rfl

/-- C7 (witness): the amended cascade law applied on Scenario A (pipe-format
wins) and Scenario B (line-by-line wins). -/
theorem claim_C7_witness :
    extract_experience scenarioA = Except.ok [entryA] ∧
    extract_experience scenarioB = Except.ok [entryB] := by
  constructor
  · exact (claim_C7_amended scenarioA
      ⟨str "PROFESSIONAL EXPERIENCE", 0, blockA, 12⟩
      [⟨str "EXPERIENCE", 13, blockA, 2⟩]
      (by rfl) (by decide) (by decide)).1 [entryA] (by rfl) (by decide)
  · exact (claim_C7_amended scenarioB ⟨str "EXPERIENCE", 0, blockB, 2⟩ []
      (by rfl) (by decide) (by decide)).2.2.1 [entryB]
      (by rfl) (by rfl) (by rfl) (by decide)

/-! ## Sorting lemmas for the locator -/

theorem candLe_total (a b : Cand) : candLe a b = true ∨ candLe b a = true := by
  simp only [candLe, Bool.or_eq_true, Bool.and_eq_true, decide_eq_true_eq,
    beq_iff_eq]
  omega

theorem candLe_trans {a b c : Cand} (h1 : candLe a b = true)
    (h2 : candLe b c = true) : candLe a c = true := by
  simp only [candLe, Bool.or_eq_true, Bool.and_eq_true, decide_eq_true_eq,
    beq_iff_eq] at h1 h2 ⊢
  omega

theorem mem_insertSorted {x a : Cand} :
    ∀ {l : List Cand}, x ∈ insertSorted a l ↔ x = a ∨ x ∈ l := by
  intro l
  induction l with
  | nil => simp [insertSorted]
  | cons b t ih =>
    rw [insertSorted]
    split
    · simp [List.mem_cons]
    · simp only [List.mem_cons, ih]
      tauto

theorem mem_sortCands {x : Cand} :
    ∀ {l : List Cand}, x ∈ sortCands l ↔ x ∈ l := by
  intro l
  induction l with
  | nil => simp [sortCands]
  | cons a t ih =>
    show x ∈ insertSorted a (sortCands t) ↔ _
    rw [mem_insertSorted]
    simp only [List.mem_cons, ih]

theorem pairwise_insertSorted {a : Cand} :
    ∀ {l : List Cand}, l.Pairwise (fun u v => candLe u v = true) →
      (insertSorted a l).Pairwise (fun u v => candLe u v = true) := by
  intro l
  induction l with
  | nil => intro _; simp [insertSorted]
  | cons b t ih =>
    intro hp
    obtain ⟨hb, ht⟩ := List.pairwise_cons.mp hp
    rw [insertSorted]
    split
    · next hab =>
      refine List.pairwise_cons.mpr ⟨?_, hp⟩
      intro y hy
      rcases List.mem_cons.mp hy with hyb | hyt
      · rw [hyb]
        exact hab
      · exact candLe_trans hab (hb y hyt)
    · next hab =>
      have hba : candLe b a = true := by
        rcases candLe_total a b with hh | hh
        · exact absurd hh hab
        · exact hh
      refine List.pairwise_cons.mpr ⟨?_, ih ht⟩
      intro y hy
      rcases mem_insertSorted.mp hy with hya | hyt
      · rw [hya]
        exact hba
      · exact hb y hyt

theorem pairwise_sortCands :
    ∀ l : List Cand, (sortCands l).Pairwise (fun u v => candLe u v = true) := by
  intro l
  induction l with
  | nil => simp [sortCands]
  | cons a t ih => exact pairwise_insertSorted ih

/-- C6: the selected candidate (the head of the sorted list) maximizes the
key `(score, position)` lexicographically — any other candidate has a
strictly lower score, or the same score and a position no larger; in
particular, between two candidates of equal score the one at the larger
character offset is selected. -/
theorem claim_C6 (text : Str) (best : Cand) (rest : List Cand)
    (h : sortedSections text = best :: rest) :
    ∀ c ∈ potentialSections text,
      c.score < best.score ∨
        (c.score = best.score ∧ c.position ≤ best.position) := by
  intro c hc
  have hmem : c ∈ sortedSections text := by
    rw [sortedSections, mem_sortCands]
    exact hc
  rw [h] at hmem
  rcases List.mem_cons.mp hmem with hcb | hrest
  · right
    rw [hcb]
    exact ⟨rfl, le_refl _⟩
  · have hpw := pairwise_sortCands (potentialSections text)
    rw [show sortCands (potentialSections text) = sortedSections text from rfl,
      h] at hpw
    have hbc : candLe best c = true := (List.pairwise_cons.mp hpw).1 c hrest
    simp only [candLe, Bool.or_eq_true, Bool.and_eq_true, decide_eq_true_eq,
      beq_iff_eq] at hbc
    tauto

/-- C6 (witness): on Scenario A the head of the sorted list is the
"PROFESSIONAL EXPERIENCE" candidate with score 12, and the other candidate
(score 2) satisfies the maximality disjunction. -/
theorem claim_C6_witness :
    (⟨str "EXPERIENCE", 13, blockA, 2⟩ : Cand).score <
        (⟨str "PROFESSIONAL EXPERIENCE", 0, blockA, 12⟩ : Cand).score ∨
      ((⟨str "EXPERIENCE", 13, blockA, 2⟩ : Cand).score =
          (⟨str "PROFESSIONAL EXPERIENCE", 0, blockA, 12⟩ : Cand).score ∧
        (⟨str "EXPERIENCE", 13, blockA, 2⟩ : Cand).position ≤
          (⟨str "PROFESSIONAL EXPERIENCE", 0, blockA, 12⟩ : Cand).position) := by
  exact claim_C6 scenarioA ⟨str "PROFESSIONAL EXPERIENCE", 0, blockA, 12⟩
    [⟨str "EXPERIENCE", 13, blockA, 2⟩] (by rfl)
    ⟨str "EXPERIENCE", 13, blockA, 2⟩ (by decide)

/-- Witness input for claim C9: all-uppercase section headings follow the
header. -/
def edgeC9 : Str := str "Senior Engineer at Initech\nEDUCATION\nSKILLS"

/-- C9: the block boundary search is case-sensitive on the exact strings
"Education", "Skills", "Projects", "Certifications"; when none of them occurs
(e.g. when the following headings are all-uppercase "EDUCATION", "SKILLS"),
no boundary is found and the block runs to the end of the document, so those
headings stay inside the block. -/
theorem claim_C9 (after_header : Str)
    (h1 : hasSub after_header (str "Education") = false)
    (h2 : hasSub after_header (str "Skills") = false)
    (h3 : hasSub after_header (str "Projects") = false)
    (h4 : hasSub after_header (str "Certifications") = false) :
    sectionTextOf after_header = pyStrip after_header := by
  rw [sectionTextOf]
  have e1 := pyFind_eq_none h1
  have e2 := pyFind_eq_none h2
  have e3 := pyFind_eq_none h3
  have e4 := pyFind_eq_none h4
  simp [next_sections, e1, e2, e3, e4]

/-- C9 (witness): an input containing uppercase "EDUCATION" and "SKILLS" but
no case-exact marker keeps its whole (stripped) tail as the block, and the
uppercase headings remain inside the block text. -/
theorem claim_C9_witness :
    hasSub edgeC9 (str "EDUCATION") = true ∧
    hasSub edgeC9 (str "SKILLS") = true ∧
    sectionTextOf edgeC9 = pyStrip edgeC9 ∧
    hasSub (sectionTextOf edgeC9) (str "EDUCATION") = true := by
  refine ⟨by decide, by decide, ?_, by decide⟩
  exact claim_C9 edgeC9 (by decide) (by decide) (by decide) (by decide)

/-! ## Scoring monotonicity (claim C4) -/

theorem pyLower_append (s t : Str) :
    pyLower (s ++ t) = pyLower s ++ pyLower t := by
  simp [pyLower]

theorem job_keywords_facts : ∀ k ∈ job_keywords, pyLower k = k ∧ 0 < k.length := by
  decide

theorem summary_keywords_facts :
    ∀ w ∈ summary_keywords, pyLower w = w ∧ 0 < w.length := by
  decide

/-- A 60-character block already containing "engineer". -/
def blockC4a : Str :=
  str "engineer aaaaaaaaaaaaaaaaaaaaaaaaaaaaaaaaaaaaaaaaaaaaaaaaaaa"

/-- A 60-character block already containing "summary". -/
def blockC4b : Str :=
  str "summary aaaaaaaaaaaaaaaaaaaaaaaaaaaaaaaaaaaaaaaaaaaaaaaaaaaa"

/-- A keyword-free block for the witness. -/
def blockC4c : Str :=
  str "The quick brown fox jumps over the lazy dog near a river"

/-- C4 (counterexample): keyword counting is presence-based, not
per-occurrence.  Appending a second occurrence of "engineer" to a real
candidate block that already contains "engineer" leaves the computed section
score unchanged (no +2), and likewise appending a second "summary" gives no
further -3. -/
theorem claim_C4_counterexample :
    potentialSections (str "EXPERIENCE\n" ++ blockC4a) =
      [⟨str "EXPERIENCE", 0, blockC4a, 2⟩] ∧
    potentialSections ((str "EXPERIENCE\n" ++ blockC4a) ++ str "engineer") =
      [⟨str "EXPERIENCE", 0, blockC4a ++ str "engineer", 2⟩] ∧
    scoreOf (str "EXPERIENCE") (blockC4a ++ str "engineer") =
      scoreOf (str "EXPERIENCE") blockC4a ∧
    potentialSections (str "EXPERIENCE\n" ++ blockC4b) =
      [⟨str "EXPERIENCE", 0, blockC4b, -3⟩] ∧
    potentialSections ((str "EXPERIENCE\n" ++ blockC4b) ++ str "summary") =
      [⟨str "EXPERIENCE", 0, blockC4b ++ str "summary", -3⟩] ∧
    scoreOf (str "EXPERIENCE") (blockC4b ++ str "summary") =
      scoreOf (str "EXPERIENCE") blockC4b := by
  refine ⟨?_, ?_, ?_, ?_, ?_, ?_⟩ <;> decide

/-- C4 (amended): scoring is monotone in keyword PRESENCE.  Appending a
job-role keyword that is not yet present (case-insensitively) strictly
increases the score, provided no summary keyword thereby becomes present;
appending a summary keyword that is not yet present strictly decreases the
score, provided no job-role keyword thereby becomes present and the block
stays in the same length bands (> 100 and < 50).  The per-keyword
contribution is +2 / -3 on first occurrence only; repeated occurrences do
not change the score. -/
theorem claim_C4_amended :
    (∀ header s k, k ∈ job_keywords →
      hasSub (pyLower s) k = false →
      (∀ w ∈ summary_keywords,
        hasSub (pyLower (s ++ k)) w = true → hasSub (pyLower s) w = true) →
      scoreOf header s < scoreOf header (s ++ k)) ∧
    (∀ header s w, w ∈ summary_keywords →
      hasSub (pyLower s) w = false →
      (∀ k ∈ job_keywords,
        hasSub (pyLower (s ++ w)) k = true → hasSub (pyLower s) k = true) →
      (100 < (s ++ w).length ↔ 100 < s.length) →
      ((s ++ w).length < 50 ↔ s.length < 50) →
      scoreOf header (s ++ w) < scoreOf header s) := by
  constructor
  · intro header s k hk hnew hsum
    obtain ⟨hklow, hklen⟩ := job_keywords_facts k hk
    have hmono : ∀ y : Str, hasSub (pyLower s) y = true →
        hasSub (pyLower (s ++ k)) y = true := by
      intro y hy
      rw [pyLower_append]
      exact hasSub_append_left _ hy
    have hJ : job_keywords.countP (fun x => hasSub (pyLower s) x) <
        job_keywords.countP (fun x => hasSub (pyLower (s ++ k)) x) := by
      refine countP_lt_of_sub hk hnew ?_ ?_
      · rw [pyLower_append, hklow]
        exact hasSub_append_self _ _
      · intro y _ hy
        exact hmono y hy
    have hS : summary_keywords.countP (fun x => hasSub (pyLower (s ++ k)) x) =
        summary_keywords.countP (fun x => hasSub (pyLower s) x) := by
      refine countP_congr_of_iff _ ?_
      intro w hw
      cases hcase : hasSub (pyLower s) w with
      | true => rw [hmono w hcase]
      | false =>
        cases hcase2 : hasSub (pyLower (s ++ k)) w with
        | true => rw [← hcase, hsum w hw hcase2]
        | false => rfl
    have hlen : s.length ≤ (s ++ k).length := by
      rw [List.length_append]
      omega
    have hB : (if 100 < s.length then (5 : Int) else 0) ≤
        (if 100 < (s ++ k).length then 5 else 0) := by
      by_cases hc : 100 < s.length
      · rw [if_pos hc, if_pos (by omega)]
      · rw [if_neg hc]
        split <;> omega
    have hP : (if (s ++ k).length < 50 then (5 : Int) else 0) ≤
        (if s.length < 50 then 5 else 0) := by
      by_cases hc : (s ++ k).length < 50
      · rw [if_pos hc, if_pos (by omega)]
      · rw [if_neg hc]
        split <;> omega
    rw [scoreOf, scoreOf]
    omega
  · intro header s w hw hnew hjob hband1 hband2
    obtain ⟨hwlow, hwlen⟩ := summary_keywords_facts w hw
    have hmono : ∀ y : Str, hasSub (pyLower s) y = true →
        hasSub (pyLower (s ++ w)) y = true := by
      intro y hy
      rw [pyLower_append]
      exact hasSub_append_left _ hy
    have hS : summary_keywords.countP (fun x => hasSub (pyLower s) x) <
        summary_keywords.countP (fun x => hasSub (pyLower (s ++ w)) x) := by
      refine countP_lt_of_sub hw hnew ?_ ?_
      · rw [pyLower_append, hwlow]
        exact hasSub_append_self _ _
      · intro y _ hy
        exact hmono y hy
    have hJ : job_keywords.countP (fun x => hasSub (pyLower (s ++ w)) x) =
        job_keywords.countP (fun x => hasSub (pyLower s) x) := by
      refine countP_congr_of_iff _ ?_
      intro k hk
      cases hcase : hasSub (pyLower s) k with
      | true => rw [hmono k hcase]
      | false =>
        cases hcase2 : hasSub (pyLower (s ++ w)) k with
        | true => rw [← hcase, hjob k hk hcase2]
        | false => rfl
    have hB : (if 100 < (s ++ w).length then (5 : Int) else 0) =
        (if 100 < s.length then 5 else 0) := by
      by_cases hc : 100 < s.length
      · rw [if_pos hc, if_pos (hband1.mpr hc)]
      · rw [if_neg hc, if_neg (fun hc2 => hc (hband1.mp hc2))]
    have hP : (if (s ++ w).length < 50 then (5 : Int) else 0) =
        (if s.length < 50 then 5 else 0) := by
      by_cases hc : s.length < 50
      · rw [if_pos hc, if_pos (hband2.mpr hc)]
      · rw [if_neg hc, if_neg (fun hc2 => hc (hband2.mp hc2))]
    rw [scoreOf, scoreOf]
    omega

/-- C4 (witness): appending "engineer" to a keyword-free block strictly
raises the score; appending "summary" strictly lowers it. -/
theorem claim_C4_witness :
    scoreOf (str "EXPERIENCE") blockC4c <
      scoreOf (str "EXPERIENCE") (blockC4c ++ str "engineer") ∧
    scoreOf (str "EXPERIENCE") (blockC4c ++ str "summary") <
      scoreOf (str "EXPERIENCE") blockC4c := by
  constructor
  · exact claim_C4_amended.1 (str "EXPERIENCE") blockC4c (str "engineer")
      (by decide) (by decide) (by decide)
  · exact claim_C4_amended.2 (str "EXPERIENCE") blockC4c (str "summary")
      (by decide) (by decide) (by decide) (by decide) (by decide)

/-! ## The whole-text fallback never uses its second pattern (claim C10) -/

theorem caps_seq {a b : Re} {l : List Str} (h : Caps (.seq a b) l) :
    ∃ l1 l2, l = l1 ++ l2 ∧ Caps a l1 ∧ Caps b l2 := by
  cases h with
  | seq h1 h2 => exact ⟨_, _, rfl, h1, h2⟩

theorem caps_grp_zero {a : Re} {l : List Str} (hz : numGrp a = 0)
    (h : Caps (.grp a) l) : ∃ u, l = [u] ∧ Lang a u := by
  cases h with
  | grp hc hl =>
    have he := caps_of_numGrp_zero hc hz
    exact ⟨_, by rw [he]; rfl, hl⟩

/-- Capture-shape inversion for the whole-text pattern 1: every producible
capture list has exactly four entries, and the fourth one is a word of the
end-date group's language. -/
theorem entire1_caps {m : List Str} (h : Caps entire_pattern1 m) :
    ∃ u1 u2 u3 u4, m = [u1, u2, u3, u4] ∧ Lang entireEndRe u4 := by
  replace h : Caps (.seq (.grp titleCaseRe) (.seq (.lit (str ","))
    (.seq (plusR spC) (.seq (.grp titleCaseRe) (.seq (plusR spC)
    (.seq (.grp entireDateRe) (.seq (.star spC) (.seq (.lit (str "-"))
    (.seq (.star spC) (.seq (.grp entireEndRe) .eps)))))))))) m := h
  obtain ⟨l1, l2, rfl, h1, hr1⟩ := caps_seq h
  clear h
  obtain ⟨u1, rfl, hL1⟩ := caps_grp_zero (by decide) h1
  obtain ⟨l3, l4, rfl, h3, hr2⟩ := caps_seq hr1
  clear hr1
  rw [caps_of_numGrp_zero h3 (by decide)]
  obtain ⟨l5, l6, rfl, h5, hr3⟩ := caps_seq hr2
  clear hr2
  rw [caps_of_numGrp_zero h5 (by decide)]
  obtain ⟨l7, l8, rfl, h7, hr4⟩ := caps_seq hr3
  clear hr3
  obtain ⟨u2, rfl, hL2⟩ := caps_grp_zero (by decide) h7
  obtain ⟨l9, l10, rfl, h9, hr5⟩ := caps_seq hr4
  clear hr4
  rw [caps_of_numGrp_zero h9 (by decide)]
  obtain ⟨l11, l12, rfl, h11, hr6⟩ := caps_seq hr5
  clear hr5
  obtain ⟨u3, rfl, hL3⟩ := caps_grp_zero (by decide) h11
  obtain ⟨l13, l14, rfl, h13, hr7⟩ := caps_seq hr6
  clear hr6
  rw [caps_of_numGrp_zero h13 (by decide)]
  obtain ⟨l15, l16, rfl, h15, hr8⟩ := caps_seq hr7
  clear hr7
  rw [caps_of_numGrp_zero h15 (by decide)]
  obtain ⟨l17, l18, rfl, h17, hr9⟩ := caps_seq hr8
  clear hr8
  rw [caps_of_numGrp_zero h17 (by decide)]
  obtain ⟨l19, l20, rfl, h19, hr10⟩ := caps_seq hr9
  clear hr9
  obtain ⟨u4, rfl, hL4⟩ := caps_grp_zero (by decide) h19
  rw [caps_of_numGrp_zero hr10 (by decide)]
  exact ⟨u1, u2, u3, u4, by simp, hL4⟩

/-- Words of the end-date group either end in the literal "20XX" or are the
literal "Current". -/
theorem entireEnd_lang {u : Str} (h : Lang entireEndRe u) :
    (∃ y, u = y ++ str "20XX") ∨ u = str "Current" := by
  cases h with
  | altL h1 =>
    left
    replace h1 : Lang (.seq (plusR alphaC) (.seq (plusR spC)
      (.seq (.lit (str "20XX")) .eps))) u := h1
    cases h1 with
    | @seq _ _ ua v1 ha h2 =>
      cases h2 with
      | @seq _ _ ub v2 hb h3 =>
        cases h3 with
        | @seq _ _ w v3 hc hd =>
          cases hc
          cases hd
          exact ⟨ua ++ ub, by simp⟩
  | altR h2 =>
    right
    cases h2
    rfl

/-- Stripping a string that ends in "20XX" keeps the "20XX" tail. -/
theorem pyStrip_ends_20XX (y : Str) :
    ∃ z, pyStrip (y ++ str "20XX") = z ++ str "20XX" := by
  have hr : rstrip (y ++ str "20XX") = y ++ str "20XX" := by
    rw [rstrip, List.reverse_append]
    rw [show List.dropWhile isPySpace ((str "20XX").reverse ++ y.reverse) =
      (str "20XX").reverse ++ y.reverse from rfl]
    rw [← List.reverse_append, List.reverse_reverse]
  rw [pyStrip, hr, lstrip, List.dropWhile_append]
  split
  · exact ⟨[], rfl⟩
  · exact ⟨List.dropWhile isPySpace y, rfl⟩

theorem strip20XX_ne_present {u : Str} (h : ∃ y, u = y ++ str "20XX") :
    pyStrip u ≠ str "Present" := by
  obtain ⟨y, rfl⟩ := h
  obtain ⟨z, hz⟩ := pyStrip_ends_20XX y
  rw [hz]
  intro heq
  have hlen := congrArg List.length heq
  simp [str] at hlen
  have hz3 : z.length = 3 := by omega
  have hdrop := congrArg (List.drop z.length) heq
  rw [List.drop_left] at hdrop
  rw [hz3] at hdrop
  exact absurd hdrop (by decide)

theorem entireEntries_len3 {m : List Str} (h : m.length = 3) :
    entireEntries m = [] := by
  cases m with
  | nil => simp at h
  | cons a t1 =>
    cases t1 with
    | nil => simp at h
    | cons b t2 =>
      cases t2 with
      | nil => simp at h
      | cons c t3 =>
        cases t3 with
        | nil => rfl
        | cons d t4 => simp at h

theorem entireEntries_end_len2 {m : List Str} (h : m.length = 2) :
    ∀ e ∈ entireEntries m, e.end_date = [] := by
  cases m with
  | nil => simp at h
  | cons a t1 =>
    cases t1 with
    | nil => simp at h
    | cons b t2 =>
      cases t2 with
      | nil =>
        intro e he
        rw [entireEntries] at he
        revert he
        split
        · intro he
          rcases List.mem_singleton.mp he with rfl
          rfl
        · intro he
          cases he
      | cons c t3 => simp at h

theorem mem_foldl_append {β : Type} (f : β → List Entry) :
    ∀ (xs : List β) (acc : List Entry) (e : Entry),
      e ∈ xs.foldl (fun a m => a ++ f m) acc ↔
        e ∈ acc ∨ ∃ m ∈ xs, e ∈ f m := by
  intro xs
  induction xs with
  | nil => simp
  | cons x t ih =>
    intro acc e
    rw [List.foldl_cons, ih]
    simp only [List.mem_append, List.mem_cons]
    constructor
    · rintro (⟨h | h⟩ | ⟨m, hm, hfm⟩)
      · exact Or.inl h
      · exact Or.inr ⟨x, Or.inl rfl, h⟩
      · exact Or.inr ⟨m, Or.inr hm, hfm⟩
    · rintro (h | ⟨m, (hm | hm), hfm⟩)
      · exact Or.inl (Or.inl h)
      · rw [hm] at hfm
        exact Or.inl (Or.inr hfm)
      · exact Or.inr ⟨m, hm, hfm⟩

theorem foldl_append_nil {β : Type} (f : β → List Entry) (xs : List β)
    (h : ∀ m ∈ xs, f m = []) :
    ∀ acc, xs.foldl (fun a m => a ++ f m) acc = acc := by
  induction xs with
  | nil => intro acc; rfl
  | cons x t ih =>
    intro acc
    rw [List.foldl_cons, h x (List.mem_cons_self _ _), List.append_nil]
    exact ih (fun m hm => h m (List.mem_cons_of_mem _ hm)) acc

/-- C10: the whole-text fallback never emits an entry from its second
pattern — the three-group tuples of `entire_pattern2` satisfy neither
dispatch branch — so the fallback output equals what patterns 1 and 3 alone
produce, and no entry it returns has end_date "Present". -/
theorem claim_C10 (text : Str) :
    extract_experience_from_entire_text text =
      entirePatternEntries entire_pattern1 text ++
        entirePatternEntries entire_pattern3 text ∧
    entirePatternEntries entire_pattern2 text = [] ∧
    ∀ e, e ∈ extract_experience_from_entire_text text →
      e.end_date ≠ str "Present" := by
  have h2 : entirePatternEntries entire_pattern2 text = [] := by
    rw [entirePatternEntries]
    refine foldl_append_nil _ _ ?_ []
    intro m hm
    have hlen := reFindall_length (by decide : wellG entire_pattern2 = true) hm
    refine entireEntries_len3 ?_
    rw [hlen]
    decide
  have hmain : extract_experience_from_entire_text text =
      entirePatternEntries entire_pattern1 text ++
        entirePatternEntries entire_pattern3 text := by
    rw [extract_experience_from_entire_text]
    rw [List.foldl_cons, List.foldl_cons, List.foldl_cons, List.foldl_nil]
    rw [h2]
    simp
  refine ⟨hmain, h2, ?_⟩
  intro e he
  rw [hmain] at he
  rcases List.mem_append.mp he with h1 | h3
  · rw [entirePatternEntries] at h1
    have := (mem_foldl_append _ _ _ _).mp h1
    rcases this with hfalse | ⟨m, hm, hem⟩
    · cases hfalse
    · have hcaps := reFindall_caps hm
      obtain ⟨u1, u2, u3, u4, rfl, hlang⟩ := entire1_caps hcaps
      rw [entireEntries] at hem
      revert hem
      split
      · intro hem
        rcases List.mem_singleton.mp hem with rfl
        show pyStrip u4 ≠ str "Present"
        rcases entireEnd_lang hlang with hy | hcur
        · exact strip20XX_ne_present hy
        · rw [hcur]
          decide
      · intro hem
        cases hem
  · rw [entirePatternEntries] at h3
    have := (mem_foldl_append _ _ _ _).mp h3
    rcases this with hfalse | ⟨m, hm, hem⟩
    · cases hfalse
    · have hlen := reFindall_length (by decide : wellG entire_pattern3 = true) hm
      have hend := entireEntries_end_len2 (by rw [hlen]; decide) e hem
      rw [hend]
      decide

/-- C10 (witness): the no-"Present" property applied to a concrete fallback
entry: on `edgeC7` the fallback yields the Developer/Beta entry, whose
end_date is not "Present". -/
theorem claim_C10_witness :
    (⟨str "Developer", str "Beta", [], [], [], []⟩ : Entry).end_date ≠
      str "Present" := by
  exact (claim_C10 edgeC7).2.2 ⟨str "Developer", str "Beta", [], [], [], []⟩
    (by decide)

end ResumeNLP
